import Mathlib

/-!
Shallow embedding of the Fishing repository's core algorithms
(`src/tools/url_extractor.py` and `src/tools/life_check.py`).

Python dictionaries with string keys are modelled as insertion-ordered
association lists with unique keys (`Record`); `dget`/`dinsert` mirror
`d.get(k)` / `d[k] = v`.  Network and subprocess effects are passed in as
explicit oracle functions, so every definition is executable.
-/

namespace Fishing

/-- A Python `Dict[str, str]` as an insertion-ordered association list. -/
abbrev Record := List (String × String)

/-- `r.get(k)`: value of the first (hence, for a well-formed dict, only)
entry with key `k`. -/
def dget (r : Record) (k : String) : Option String :=
  (r.find? (fun p => p.1 == k)).map (fun p => p.2)

/-- `r[k] = v`: replace the (for a dict, unique) entry with key `k` in
place, else append. -/
def dinsert : Record → String → String → Record
  | [], k, v => [(k, v)]
  | p :: r, k, v => if p.1 == k then (k, v) :: r else p :: dinsert r k v

/-- `for k in r.keys(): m[k] = r[k]` (the update loop inside `merge_rows`). -/
def dupdate (m : Record) (r : Record) : Record :=
  r.foldl (fun acc p => dinsert acc p.1 p.2) m

/-- A record is well-formed when, like a Python dict, its keys are distinct. -/
def WFRec (r : Record) : Prop := (r.map Prod.fst).Nodup

instance decWFRec (r : Record) : Decidable (WFRec r) :=
  inferInstanceAs (Decidable ((r.map Prod.fst).Nodup))

/-- Python `Dict[str, int]` for the row index inside `merge_rows`. -/
abbrev IxMap := List (String × Nat)

/-- Index lookup, `index.get(k)`. -/
def iget (ix : IxMap) (k : String) : Option Nat :=
  (ix.find? (fun p => p.1 == k)).map (fun p => p.2)

/-- Index update, `index[k] = n`. -/
def iput : IxMap → String → Nat → IxMap
  | [], k, n => [(k, n)]
  | p :: ix, k, n => if p.1 == k then (k, n) :: ix else p :: iput ix k n

/-- First-occurrence deduplication with an accumulated `seen` set, the
`seen = set(); for x in l: if x not in seen: ...` idiom used throughout
the source. -/
def dedupFirstAux (seen : List String) : List String → List String
  | [] => []
  | x :: xs =>
    if seen.contains x then dedupFirstAux seen xs
    else x :: dedupFirstAux (x :: seen) xs

/-- First-occurrence deduplication of a list of strings. -/
def dedupFirst (l : List String) : List String := dedupFirstAux [] l

/-- Python `str.strip()`: drop whitespace at both ends. -/
def strTrim (s : String) : String :=
  String.mk (((s.data.dropWhile Char.isWhitespace).reverse.dropWhile
    Char.isWhitespace).reverse)

/-- Python `str.lower()`. -/
def strLower (s : String) : String := String.mk (s.data.map Char.toLower)

/-- Split on the separator characters selected by `p`, keeping empty
segments, like Python `str.split(sep)` with a one-character separator. -/
def splitChars (p : Char → Bool) : List Char → List (List Char)
  | [] => [[]]
  | c :: cs =>
    if p c then [] :: splitChars p cs
    else
      match splitChars p cs with
      | h :: t => (c :: h) :: t
      | [] => [[c]]

def strSplit (s : String) (p : Char → Bool) : List String :=
  (splitChars p s.data).map String.mk

/-- Code-point lexicographic comparison, Python string `<`. -/
def charsLt : List Char → List Char → Bool
  | _ :: _, [] => false
  | [], [] => false
  | [], _ :: _ => true
  | a :: as, b :: bs => if a < b then true else if b < a then false else charsLt as bs

def strLt (a b : String) : Bool := charsLt a.data b.data

/-- `key_field` from `url_extractor.py`: the first header column whose
stripped lowercase form is `domain` or `fqdn`, else the first column,
else the literal `"domain"`. -/
def keyMatcher (k : String) : Bool :=
  strLower (strTrim k) == "domain" || strLower (strTrim k) == "fqdn"

def key_field (header : List String) : String :=
  match header.find? keyMatcher with
  | some k => k
  | none =>
    match header with
    | k :: _ => k
    | [] => "domain"

/-- The index-building pass over the existing rows in `merge_rows`
(`for r in rows1: out.append(dict(r)); index[r.get(k1)] = len(out)-1`).
`pos` is the position of the next row. -/
def build_index (k1 : Option String) : List Record → Nat → IxMap → IxMap
  | [], _, ix => ix
  | r :: rs, pos, ix =>
    let ix' :=
      match k1 with
      | some k =>
        match dget r k with
        | some v => iput ix v pos
        | none => ix
      | none => ix
    build_index k1 rs (pos + 1) ix'

/-- The incoming-rows pass of `merge_rows`: upsert each incoming row into
`out`, keyed through `ix`. -/
def merge_loop (k2 : Option String) : List Record → List Record → IxMap → List Record
  | [], out, _ => out
  | r :: rs, out, ix =>
    match (match k2 with | some k => dget r k | none => none) with
    | some v =>
      match iget ix v with
      | some i => merge_loop k2 rs (out.set i (dupdate ((out.get? i).getD []) r)) ix
      | none => merge_loop k2 rs (out ++ [r]) (iput ix v out.length)
    | none => merge_loop k2 rs (out ++ [r]) ix

/-- Re-expansion of a record to the merged header
(`{k: r.get(k, "") for k in header}`). -/
def normTo (header : List String) (r : Record) : Record :=
  header.map (fun c => (c, (dget r c).getD ""))

/-- `merge_rows` from `url_extractor.py`: ordered column union, key-based
upsert of incoming rows into the existing rows, then re-expansion of every
row to the merged header. -/
def merge_rows (h1 : List String) (rows1 : List Record)
    (h2 : List String) (rows2 : List Record) : List String × List Record :=
  let k1 : Option String := if h1.isEmpty then none else some (key_field h1)
  let k2 : Option String := if h2.isEmpty then none else some (key_field h2)
  let header0 := dedupFirst (h1 ++ h2)
  let header :=
    if header0.isEmpty then
      (match k2 with | some k => [k] | none => header0)
    else header0
  let ix := build_index k1 rows1 0 []
  let out := merge_loop k2 rows2 rows1 ix
  (header, out.map (normTo header))

/-- The newly-added-domain count computed in `process_domain`
(lines 559-572): incoming rows whose key value is absent from the set of
existing key values. -/
def added_count (h1 : List String) (rows1 : List Record)
    (h2 : List String) (rows2 : List Record) : Nat :=
  let k1 : Option String := if h1.isEmpty then none else some (key_field h1)
  let k2 : Option String := if h2.isEmpty then none else some (key_field h2)
  let existing : List String :=
    match k1 with
    | some k => rows1.filterMap (fun r => dget r k)
    | none => []
  match k2 with
  | some k => (rows2.filterMap (fun r => dget r k)).countP (fun v => !(existing.contains v))
  | none => 0

/-- Python `t.endswith(s)` modelled on character lists. -/
def strEndsWith (s t : String) : Bool := t.data.isSuffixOf s.data

/-- Contiguous-sublist test on character lists. -/
def charsInfix (t : List Char) : List Char → Bool
  | [] => t.isEmpty
  | c :: cs => t.isPrefixOf (c :: cs) || charsInfix t cs

/-- Python `t in s` (substring test) modelled on character lists. -/
def strContains (s t : String) : Bool := charsInfix t.data s.data

/-- `PLATFORM_BASES` from `url_extractor.py`, in source (dict insertion)
order: platform identifier, hosting base domain. -/
def PLATFORM_BASES : List (String × String) :=
  [("ngrok", "ngrok.io"),
   ("vercel", "vercel.app"),
   ("netlify", "netlify.app"),
   ("pages", "pages.dev"),
   ("github", "github.io"),
   ("gitlab", "gitlab.io"),
   ("rtdocs", "readthedocs.io"),
   ("azurestatic", "azurestaticapps.net"),
   ("azureweb", "azurewebsites.net"),
   ("azureblob", "web.core.windows.net"),
   ("appspot", "appspot.com"),
   ("firebase", "firebaseapp.com"),
   ("webapp", "web.app"),
   ("googleusercontent", "googleusercontent.com"),
   ("googlesites", "sites.google.com"),
   ("heroku", "herokuapp.com"),
   ("render", "onrender.com"),
   ("fly", "fly.dev"),
   ("railway", "railway.app"),
   ("glitch", "glitch.me"),
   ("cloudfront", "cloudfront.net"),
   ("fastly", "fastly.net"),
   ("surge", "surge.sh"),
   ("h000", "000webhostapp.com"),
   ("wix", "wixsite.com"),
   ("weebly", "weebly.com"),
   ("godaddy", "godaddysites.com"),
   ("squarespace", "squarespace.com"),
   ("notion", "notion.site"),
   ("substack", "substack.com")]

/-- `PLATFORM_CNAME_MARKERS` from `url_extractor.py`, in source order. -/
def PLATFORM_CNAME_MARKERS : List (String × List String) :=
  [("vercel", ["vercel-dns.com"]),
   ("netlify", ["netlify.app", "netlifyglobalcdn.com"]),
   ("heroku", ["herokudns.com"]),
   ("google", ["ghs.googlehosted.com", "googlehosted.com"]),
   ("cloudfront", ["cloudfront.net"]),
   ("fastly", ["fastly.net"]),
   ("pages", ["pages.dev"]),
   ("github", ["github.io"]),
   ("render", ["render.com"]),
   ("fly", ["fly.dev"]),
   ("azurestatic", ["azurestaticapps.net", "azureedge.net"]),
   ("azureweb", ["azurewebsites.net"])]

/-- The per-base static test in `classify_platform`:
`dl.endswith("." + base) or dl == base or dl.endswith(base)`. -/
def static_match (dl base : String) : Bool :=
  strEndsWith dl ("." ++ base) || dl == base || strEndsWith dl base

/-- `classify_platform` from `url_extractor.py`.  A `none` or empty chain
is falsy in Python (`if cname_chain:`), so only a nonempty chain reaches
the marker pass. -/
def classify_platform (domain : String) (cname_chain : Option (List String)) :
    Option String :=
  let dl := strLower domain
  match PLATFORM_BASES.find? (fun p => static_match dl p.2) with
  | some p => some p.1
  | none =>
    match cname_chain with
    | some chain =>
      if chain.isEmpty then none
      else
        let joined := String.intercalate "," (chain.map (fun c => strLower c))
        match PLATFORM_CNAME_MARKERS.find? (fun p => p.2.any (fun m => strContains joined m)) with
        | some p => some p.1
        | none => none
    | none => none

/-- `str(ans[0].target).rstrip('.')`. -/
def rstripDots (s : String) : String :=
  String.mk ((s.data.reverse.dropWhile (fun c => c = '.')).reverse)

/-- One bounded pass of the loop in `get_cname_chain`.  The resolver
oracle returns `none` for a raised exception and `some answers`
otherwise; an empty answer list is falsy (`if not ans: break`). -/
def cname_step (resolve : String → Option (List String)) :
    Nat → String → List String → List String → List String
  | 0, _, _, out => out
  | n + 1, target, seen, out =>
    if seen.contains target then out
    else
      match resolve target with
      | none => out
      | some [] => out
      | some (a :: _) =>
        let cn := rstripDots a
        cname_step resolve n cn (target :: seen) (out ++ [cn])

/-- `get_cname_chain` from `url_extractor.py`: at most 5 hops, visited-set
cycle guard, every resolution failure swallowed. -/
def get_cname_chain (resolve : String → Option (List String)) (name : String) :
    List String :=
  cname_step resolve 5 name [] []

/-- The candidate-fusion part of `process_domain` (lines 510-515):
first-seen-order deduplication across all sources. -/
def fuse_candidates (results gen cs z : List String)
    (sonar : List (String × Option String)) : List String :=
  dedupFirst (results ++ gen ++ cs ++ z ++ sonar.map (fun p => p.1))

/-- The classification part of `process_domain` (lines 516-538): static
pass, then CNAME pass over the unclassified candidates (`chainF` is the
resolved chain per candidate; thread completion can permute this segment,
which no claim here depends on), then the pre-labelled passive-DNS pairs. -/
def classify_candidates (chainF : String → List String) (candidates : List String)
    (sonar : List (String × Option String)) : List (String × String) :=
  let classified0 := candidates.filterMap
    (fun d => (classify_platform d none).map (fun s => (d, s)))
  let no_class := candidates.filter (fun d => (classify_platform d none).isNone)
  let classified1 := classified0 ++ no_class.filterMap
    (fun d => (classify_platform d (some (chainF d))).map (fun s => (d, s)))
  classified1 ++ sonar.filterMap (fun p => p.2.map (fun s => (p.1, s)))

/-- The rows contributed by the fusion sources (lines 539-545). -/
def ct_rows_of (z : List String) (sonar : List (String × Option String))
    (classified : List (String × String)) : List Record :=
  z.map (fun d => [("domain", d), ("type", "nrd"), ("source", "czds")])
  ++ sonar.map (fun p => [("domain", p.1), ("type", "pdns"), ("source", p.2.getD "sonar")])
  ++ classified.map (fun p => [("domain", p.1), ("type", "ct_log"), ("source", p.2)])

/-- Header/record extension of the engine result with the fusion rows
(lines 546-553). -/
def extend_result (h2 : List String) (r2 : List Record) (ct_rows : List Record) :
    List String × List Record :=
  if ct_rows.isEmpty then (h2, r2)
  else
    let base := if h2.isEmpty then ["domain", "type", "source"] else h2
    (base ++ (["domain", "type", "source"].filter (fun c => !(base.contains c))),
     r2 ++ ct_rows)

/-- The pure dataset-producing part of `process_domain` (lines 510-578).
Inputs are the already-fetched engine result `(h2, r2)`, the per-source
candidate lists, the CNAME oracle and the existing on-disk dataset
(`none` if the file is absent).  Returns `none` when nothing is written
(line 554-555), else the persisted `(header, rows)` and the reported
count of newly added domains. -/
def process_domain (chainF : String → List String)
    (h2 : List String) (r2 : List Record)
    (results gen cs z : List String) (sonar : List (String × Option String))
    (existing : Option (List String × List Record)) :
    Option (List String × List Record × Nat) :=
  let candidates := fuse_candidates results gen cs z sonar
  let classified := classify_candidates chainF candidates sonar
  let ct_rows := ct_rows_of z sonar classified
  let hr := extend_result h2 r2 ct_rows
  if hr.1.isEmpty && hr.2.isEmpty then none
  else
    match existing with
    | some (h1, r1) =>
      let added := added_count h1 r1 hr.1 hr.2
      let m := merge_rows h1 r1 hr.1 hr.2
      some (m.1, m.2, added)
    | none => some (hr.1, hr.2, hr.2.length)

/-! ### Liveness classifier (`src/tools/life_check.py`) -/

/-- `read_domains` from `life_check.py`, over the CSV rows: pick the
first `domain`/`fqdn` column (case-insensitive) if the first row has one,
else fall back to the first cell of every row (first row included);
dedup keeping first occurrences.  A CSV cell is truthy iff nonempty. -/
def read_domains (rows : List (List String)) : List String :=
  match rows with
  | [] => []
  | first :: rest =>
    let header : List String :=
      if first.any (fun x => x ≠ "") then first.map (fun x => strLower (strTrim x)) else []
    let idx := header.findIdx? (fun k => k == "domain" || k == "fqdn")
    let out : List String :=
      match idx with
      | some i =>
        rest.filterMap (fun row =>
          if i < row.length then
            (let d := strTrim (row.getD i ""); if d ≠ "" then some d else none)
          else none)
      | none =>
        (first :: rest).filterMap (fun row =>
          match row with
          | [] => none
          | c :: _ => (let d := strTrim c; if d ≠ "" then some d else none))
    dedupFirst out

/-- The truthy WHOIS response fields inspected by `whois_registered`
(each `none` models a missing attribute, `some ""` an empty one). -/
structure WhoisData where
  domain_name : Option String
  registrar : Option String
  creation_date : Option String
  updated_date : Option String
  expiration_date : Option String
  name_servers : Option String

/-- Python truthiness of an optional string field. -/
def truthy : Option String → Bool
  | none => false
  | some s => s ≠ ""

/-- `whois_registered` from `life_check.py`: `none` covers both a raised
exception and a `None` response, otherwise any truthy field of
`{domain_name, registrar, creation_date, updated_date, expiration_date,
name_servers}` marks the domain registered. -/
def whois_registered (w : Option WhoisData) : Bool :=
  match w with
  | none => false
  | some data =>
    [data.domain_name, data.registrar, data.creation_date, data.updated_date,
     data.expiration_date, data.name_servers].any truthy

/-- The pure core of `process_file` from `life_check.py`.  `resolveF` and
`whoisF` are the DNS and WHOIS probe oracles; `cache` is the parsed
existing output file.  Returns the rows written back, plus the lists of
domains actually submitted to the DNS pool and to the WHOIS pool. -/
def process_file (resolveF whoisF : String → Bool)
    (domains : List String) (cache : List (String × Bool × Bool)) :
    List (String × Bool × Bool) × List String × List String :=
  let todo := domains.filter (fun d => (cache.find? (fun p => p.1 == d)).isNone)
  let resolvable : List (String × Bool) := todo.map (fun d => (d, resolveF d))
  let whois_targets := todo.filter
    (fun d => !(((resolvable.find? (fun p => p.1 == d)).map (fun p => p.2)).getD false))
  let registered : List (String × Bool) := whois_targets.map (fun d => (d, whoisF d))
  let rows := domains.filterMap (fun d =>
    match (cache.find? (fun p => p.1 == d)).map (fun p => p.2) with
    | some (rv, rg) => if rv || rg then some (d, rv, rg) else none
    | none =>
      let rv := ((resolvable.find? (fun p => p.1 == d)).map (fun p => p.2)).getD false
      let rg := ((registered.find? (fun p => p.1 == d)).map (fun p => p.2)).getD false
      if rv || rg then some (d, rv, rg) else none)
  (rows, todo, whois_targets)

/-! ### Dictionary builder (`read_keywords_map`, `read_extra_keywords`,
`main` in `url_extractor.py`) -/

/-- Tokenization of an (already lowercased) organisation name:
`re.sub(r"[^a-z0-9 ]+", " ", org)` followed by `.split()` and the
length-3 filter. -/
def org_words (org : String) : List String :=
  let clean := String.mk (org.data.map (fun c =>
    if (('a' ≤ c && c ≤ 'z') || ('0' ≤ c && c ≤ '9') || c = ' ') then c else ' '))
  ((strSplit clean (fun c => c = ' ')).filter (fun w => w ≠ "")).filter
    (fun w => w.length ≥ 3)

/-- The per-row keyword computation of `read_keywords_map` (lines 60-86):
normalize the cells, require a dotted domain, then
`[sld] (+ [joined words] + words)` with empties dropped and first
occurrences kept. -/
def row_keywords (domCell : String) (orgCell : Option String) :
    Option (String × List String) :=
  let dom := strLower (strTrim domCell)
  let org := orgCell.map (fun o => strLower (strTrim o))
  if dom ≠ "" && dom.data.contains '.' then
    let parts := strSplit dom (fun c => c = '.')
    let sld := if parts.length ≥ 2 then parts.getD (parts.length - 2) "" else parts.headD ""
    let kws := [sld] ++
      (match org with
       | some o =>
         if o ≠ "" then
           (let words := org_words o
            if words ≠ [] then [String.join words] ++ words else [])
         else []
       | none => [])
    some (dom, dedupFirst (kws.filter (fun k => k ≠ "")))
  else none

/-- `read_extra_keywords` over the lines of the keyword file. -/
def read_extra_keywords (lines : List String) : List String :=
  dedupFirst ((lines.map (fun l => strLower (strTrim l))).filter (fun w => w ≠ ""))

/-- The built-in phishing lexicon `base_extra` from `main`. -/
def base_extra : List String :=
  ["login", "secure", "verify", "update", "support", "helpdesk", "banking",
   "kyc", "otp", "pay", "payment", "bill", "recharge", "claim", "policy",
   "ipo", "ipoapply", "apply", "card", "credit", "debit", "netbanking",
   "online", "account"]

/-- `main` lines 608-615: append the unseen built-in lexicon entries to
the file keywords. -/
def extra_keywords (fileLines : List String) : List String :=
  base_extra.foldl (fun acc w => if acc.contains w then acc else acc ++ [w])
    (read_extra_keywords fileLines)

/-- Stable insertion of a string into a sorted list (code-point order,
matching Python string comparison). -/
def insortStr (x : String) : List String → List String
  | [] => [x]
  | y :: ys => if strLt x y then x :: y :: ys else y :: insortStr x ys

/-- Insertion sort on strings; on distinct elements this agrees with
Python `sorted`. -/
def sortStrings (l : List String) : List String := l.foldr insortStr []

/-- `main` lines 616-621: the dictionary handed to the engine,
`sorted(set(kws) | set(extra_kws))`. -/
def engine_dict (kws extra : List String) : List String :=
  sortStrings (dedupFirst (kws ++ extra))

/-! ### Candidate engine adapter (`run_dnstwist` in `url_extractor.py`) -/

/-- `item = {}; for i, k in enumerate(header): item[k] = r[i] if i < len(r) else ""`. -/
def mkItem (header : List String) (r : List String) : Record :=
  header.enum.foldl (fun item p => dinsert item p.2 (r.getD p.1 "")) []

/-- The result-shaping part of `run_dnstwist`: `returncode` and raw
`stdout` come from the subprocess, `rows` is the `csv.reader` parse of
that stdout.  Non-zero exit or blank output yields empty header/records. -/
def run_dnstwist (returncode : Int) (stdout : String) (rows : List (List String)) :
    List String × List Record :=
  if returncode ≠ 0 || strTrim stdout == "" then ([], [])
  else
    match rows with
    | [] => ([], [])
    | header :: data => (header, data.map (mkItem header))

/-! ### Basic lemmas about the dict model -/

theorem dget_nil (k : String) : dget [] k = none := rfl

theorem dget_cons (a b : String) (r : Record) (k : String) :
    dget ((a, b) :: r) k = if a = k then some b else dget r k := by
  by_cases h : a = k <;> simp [dget, List.find?_cons, h]

theorem dget_eq_none_iff (r : Record) (k : String) :
    dget r k = none ↔ k ∉ r.map Prod.fst := by
  induction r with
  | nil => simp [dget]
  | cons p r ih =>
    obtain ⟨a, b⟩ := p
    rw [dget_cons]
    by_cases h : a = k
    · subst h
      simp
    · simp only [if_neg h, ih, List.map_cons, List.mem_cons]
      constructor
      · intro hn hmem
        rcases hmem with hm | hm
        · exact h hm.symm
        · exact hn hm
      · intro hn hm
        exact hn (Or.inr hm)

theorem dget_isSome_iff (r : Record) (k : String) :
    (dget r k).isSome = true ↔ k ∈ r.map Prod.fst := by
  constructor
  · intro h
    by_contra hmem
    rw [(dget_eq_none_iff r k).mpr hmem] at h
    simp at h
  · intro hmem
    cases hv : dget r k with
    | some v => rfl
    | none => exact absurd hmem ((dget_eq_none_iff r k).mp hv)

theorem dget_dinsert (r : Record) (k v k' : String) :
    dget (dinsert r k v) k' = if k = k' then some v else dget r k' := by
  induction r with
  | nil =>
    by_cases h : k = k' <;> simp [dinsert, dget_cons, h]
  | cons p r ih =>
    obtain ⟨a, b⟩ := p
    by_cases hak : a = k
    · subst hak
      by_cases h : a = k' <;> simp [dinsert, dget_cons, h]
    · have hbeq : (a == k) = false := by simp [hak]
      have hd : dinsert ((a, b) :: r) k v = (a, b) :: dinsert r k v := by
        simp [dinsert, hbeq]
      by_cases h : a = k'
      · subst h
        rw [hd, dget_cons, if_pos rfl, if_neg (fun hk => hak hk.symm),
          dget_cons, if_pos rfl]
      · rw [hd, dget_cons, if_neg h, ih, dget_cons, if_neg h]

theorem dget_dupdate (m r : Record) (k' : String) (hr : WFRec r) :
    dget (dupdate m r) k' =
      match dget r k' with
      | some v => some v
      | none => dget m k' := by
  induction r generalizing m with
  | nil => simp [dupdate, dget]
  | cons p r ih =>
    obtain ⟨a, b⟩ := p
    have hr' : WFRec r := (List.nodup_cons.mp hr).2
    have ha : a ∉ r.map Prod.fst := (List.nodup_cons.mp hr).1
    have step : dupdate m ((a, b) :: r) = dupdate (dinsert m a b) r := rfl
    rw [step, ih (dinsert m a b) hr']
    by_cases h : a = k'
    · subst h
      have : dget r a = none := (dget_eq_none_iff r a).mpr ha
      simp [this, dget_cons, dget_dinsert]
    · simp [dget_cons, h]
      cases hv : dget r k' with
      | some v => simp
      | none => simp [dget_dinsert, h]

theorem dget_dupdate_some (m r : Record) (k v : String) (hr : WFRec r)
    (h : dget r k = some v) : dget (dupdate m r) k = some v := by
  rw [dget_dupdate m r k hr, h]

theorem iget_nil (k : String) : iget [] k = none := rfl

theorem iget_cons (a : String) (n : Nat) (ix : IxMap) (k : String) :
    iget ((a, n) :: ix) k = if a = k then some n else iget ix k := by
  by_cases h : a = k <;> simp [iget, List.find?_cons, h]

theorem iget_iput (ix : IxMap) (k : String) (n : Nat) (k' : String) :
    iget (iput ix k n) k' = if k = k' then some n else iget ix k' := by
  induction ix with
  | nil =>
    by_cases h : k = k' <;> simp [iput, iget_cons, h]
  | cons p ix ih =>
    obtain ⟨a, m⟩ := p
    by_cases hak : a = k
    · subst hak
      by_cases h : a = k' <;> simp [iput, iget_cons, h]
    · have hbeq : (a == k) = false := by simp [hak]
      have hd : iput ((a, m) :: ix) k n = (a, m) :: iput ix k n := by
        simp [iput, hbeq]
      by_cases h : a = k'
      · subst h
        rw [hd, iget_cons, if_pos rfl, if_neg (fun hk => hak hk.symm),
          iget_cons, if_pos rfl]
      · rw [hd, iget_cons, if_neg h, ih, iget_cons, if_neg h]

theorem contains_iff_mem (l : List String) (x : String) :
    l.contains x = true ↔ x ∈ l := by
  simp [List.contains_eq_any_beq, List.any_eq_true, eq_comm]

theorem mem_dedupFirstAux (seen l : List String) (x : String) :
    x ∈ dedupFirstAux seen l ↔ x ∈ l ∧ x ∉ seen := by
  induction l generalizing seen with
  | nil => simp [dedupFirstAux]
  | cons a l ih =>
    by_cases h : a ∈ seen
    · rw [dedupFirstAux, if_pos ((contains_iff_mem seen a).mpr h), ih]
      constructor
      · rintro ⟨hx, hs⟩
        exact ⟨List.mem_cons_of_mem a hx, hs⟩
      · rintro ⟨hx, hs⟩
        rcases List.mem_cons.mp hx with rfl | hx
        · exact absurd h hs
        · exact ⟨hx, hs⟩
    · rw [dedupFirstAux, if_neg (by simpa using (fun hc => h ((contains_iff_mem seen a).mp hc)))]
      simp only [List.mem_cons, ih]
      constructor
      · rintro (rfl | ⟨hx, hs⟩)
        · exact ⟨Or.inl rfl, h⟩
        · exact ⟨Or.inr hx, fun hmem => hs (Or.inr hmem)⟩
      · rintro ⟨rfl | hx, hs⟩
        · exact Or.inl rfl
        · by_cases hxa : x = a
          · exact Or.inl hxa
          · exact Or.inr ⟨hx, fun hmem => hmem.elim hxa hs⟩

theorem nodup_dedupFirstAux (seen l : List String) :
    (dedupFirstAux seen l).Nodup := by
  induction l generalizing seen with
  | nil => simp [dedupFirstAux]
  | cons a l ih =>
    by_cases h : a ∈ seen
    · rw [dedupFirstAux, if_pos ((contains_iff_mem seen a).mpr h)]
      exact ih seen
    · rw [dedupFirstAux, if_neg (by simpa using (fun hc => h ((contains_iff_mem seen a).mp hc)))]
      refine List.nodup_cons.mpr ⟨?_, ih (a :: seen)⟩
      intro hmem
      exact ((mem_dedupFirstAux (a :: seen) l a).mp hmem).2 (List.mem_cons_self a seen)

theorem nodup_dedupFirst (l : List String) : (dedupFirst l).Nodup :=
  nodup_dedupFirstAux [] l

theorem mem_dedupFirst (l : List String) (x : String) :
    x ∈ dedupFirst l ↔ x ∈ l := by
  rw [dedupFirst, mem_dedupFirstAux]
  simp

theorem find?_dedupFirstAux (p : String → Bool) (seen l : List String)
    (hseen : ∀ s ∈ seen, p s = false) :
    (dedupFirstAux seen l).find? p = l.find? p := by
  induction l generalizing seen with
  | nil => simp [dedupFirstAux]
  | cons a l ih =>
    by_cases h : a ∈ seen
    · rw [dedupFirstAux, if_pos ((contains_iff_mem seen a).mpr h), ih seen hseen,
        List.find?_cons_of_neg _ (by simp [hseen a h])]
    · rw [dedupFirstAux, if_neg (by simpa using (fun hc => h ((contains_iff_mem seen a).mp hc)))]
      by_cases hp : p a
      · rw [List.find?_cons_of_pos _ hp, List.find?_cons_of_pos _ hp]
      · rw [List.find?_cons_of_neg _ hp, List.find?_cons_of_neg _ hp]
        refine ih (a :: seen) ?_
        intro s hs
        rcases List.mem_cons.mp hs with rfl | hs
        · simpa using hp
        · exact hseen s hs

theorem find?_dedupFirst (p : String → Bool) (l : List String) :
    (dedupFirst l).find? p = l.find? p :=
  find?_dedupFirstAux p [] l (by simp)

theorem dedupFirst_cons (x : String) (l : List String) :
    dedupFirst (x :: l) = x :: dedupFirstAux [x] l := by
  rw [dedupFirst, dedupFirstAux, if_neg (by simp)]

theorem dget_normTo (header : List String) (r : Record) (c : String)
    (h : c ∈ header) :
    dget (normTo header r) c = some ((dget r c).getD "") := by
  induction header with
  | nil => cases h
  | cons a hs ih =>
    rcases List.mem_cons.mp h with rfl | h
    · simp [normTo, dget_cons]
    · by_cases hac : a = c
      · subst hac
        simp [normTo, dget_cons]
      · rw [normTo, List.map_cons, dget_cons, if_neg hac]
        exact ih h

/-! ### The merge invariant relating `out` and `index` inside `merge_rows` -/

/-- The state invariant of the upsert loop: all rows are keyed, key
values are pairwise distinct, and the index is exactly the map from key
value to row position. -/
structure MState (k : String) (out : List Record) (ix : IxMap) : Prop where
  keyed : ∀ r ∈ out, (dget r k).isSome
  nodup : (out.map (fun r => dget r k)).Nodup
  sound : ∀ (v : String) (i : Nat), iget ix v = some i →
    ∃ hi : i < out.length, dget out[i] k = some v
  compl : ∀ (i : Nat) (hi : i < out.length) (v : String),
    dget out[i] k = some v → iget ix v = some i

theorem mstate_nil (k : String) : MState k [] [] := by
  refine ⟨by simp, by simp, ?_, ?_⟩
  · intro v i h
    simp [iget] at h
  · intro i hi
    simp at hi

theorem set_self (l : List Record) (i : Nat) (hi : i < l.length) :
    l.set i l[i] = l := by
  apply List.ext_getElem (by simp)
  intro n h1 h2
  rw [List.getElem_set]
  split
  · next h => subst h; rfl
  · rfl

theorem mstate_append (k : String) (out : List Record) (ix : IxMap)
    (q : Record) (v : String) (hst : MState k out ix)
    (hq : dget q k = some v) (hfresh : iget ix v = none) :
    MState k (out ++ [q]) (iput ix v out.length) := by
  have hv_not : ∀ (i : Nat) (hi : i < out.length), dget out[i] k ≠ some v := by
    intro i hi hcon
    have := hst.compl i hi v hcon
    rw [hfresh] at this
    cases this
  refine ⟨?_, ?_, ?_, ?_⟩
  · intro r hr
    rcases List.mem_append.mp hr with h | h
    · exact hst.keyed r h
    · rcases List.mem_singleton.mp h with rfl
      simp [hq]
  · rw [List.map_append]
    refine List.nodup_append.mpr ⟨hst.nodup, by simp, ?_⟩
    intro y hy hy2
    simp only [List.map_cons, List.map_nil, List.mem_singleton] at hy2
    subst hy2
    rcases List.mem_map.mp hy with ⟨r, hr, hrk⟩
    rcases List.getElem_of_mem hr with ⟨i, hi, rfl⟩
    rw [hq] at hrk
    exact hv_not i hi hrk
  · intro v' i h
    rw [iget_iput] at h
    by_cases hv : v = v'
    · subst hv
      rw [if_pos rfl] at h
      have hi : i = out.length := by
        cases h
        rfl
      subst hi
      refine ⟨by simp, ?_⟩
      rw [List.getElem_concat_length _ _ _ rfl]
      exact hq
    · rw [if_neg hv] at h
      rcases hst.sound v' i h with ⟨hi, hkey⟩
      refine ⟨by simp; omega, ?_⟩
      rw [List.getElem_append_left hi]
      exact hkey
  · intro i hi v' hkey
    have hlen : i < out.length + 1 := by simpa using hi
    rw [iget_iput]
    by_cases hio : i < out.length
    · rw [List.getElem_append_left hio] at hkey
      have hne : v ≠ v' := by
        intro hvv
        subst hvv
        exact hv_not i hio hkey
      rw [if_neg hne]
      exact hst.compl i hio v' hkey
    · have hieq : i = out.length := by omega
      subst hieq
      rw [List.getElem_concat_length _ _ _ rfl] at hkey
      rw [hq] at hkey
      cases hkey
      rw [if_pos rfl]

theorem mstate_set (k : String) (out : List Record) (ix : IxMap)
    (q : Record) (i : Nat) (hi : i < out.length) (v : String)
    (hst : MState k out ix) (hq : dget q k = some v) (hwf : WFRec q)
    (hkey : dget out[i] k = some v) :
    MState k (out.set i (dupdate out[i] q)) ix := by
  have hnewkey : dget (dupdate out[i] q) k = some v :=
    dget_dupdate_some out[i] q k v hwf hq
  have hpos : ∀ (j : Nat) (hj : j < out.length)
      (hj2 : j < (out.set i (dupdate out[i] q)).length),
      dget (out.set i (dupdate out[i] q))[j] k = dget out[j] k := by
    intro j hj hj2
    rw [List.getElem_set]
    split
    · next hij => subst hij; rw [hnewkey, hkey]
    · rfl
  have hmap : (out.set i (dupdate out[i] q)).map (fun r => dget r k)
      = out.map (fun r => dget r k) := by
    apply List.ext_getElem (by simp)
    intro n h1 h2
    simp only [List.getElem_map]
    exact hpos n (by simpa using h2) (by simpa using h2)
  refine ⟨?_, ?_, ?_, ?_⟩
  · intro r hr
    have : dget r k ∈ (out.set i (dupdate out[i] q)).map (fun r => dget r k) :=
      List.mem_map.mpr ⟨r, hr, rfl⟩
    rw [hmap] at this
    rcases List.mem_map.mp this with ⟨r', hr', hr'k⟩
    rw [← hr'k]
    exact hst.keyed r' hr'
  · rw [hmap]
    exact hst.nodup
  · intro v' j h
    rcases hst.sound v' j h with ⟨hj, hkey'⟩
    refine ⟨by simpa using hj, ?_⟩
    rw [hpos j hj (by simpa using hj)]
    exact hkey'
  · intro j hj v' hkey'
    have hj' : j < out.length := by simpa using hj
    rw [hpos j hj' hj] at hkey'
    exact hst.compl j hj' v' hkey'

/-- `build_index` over keyed rows with pairwise-distinct keys extends the
invariant. -/
theorem mstate_build_index (k : String) :
    ∀ (rows out : List Record) (ix : IxMap), MState k out ix →
    (∀ r ∈ rows, (dget r k).isSome) →
    (((out ++ rows).map (fun r => dget r k)).Nodup) →
    MState k (out ++ rows) (build_index (some k) rows out.length ix) := by
  intro rows
  induction rows with
  | nil =>
    intro out ix hst _ _
    simpa using hst
  | cons r rs ih =>
    intro out ix hst hkeyed hnodup
    rcases Option.isSome_iff_exists.mp (hkeyed r (List.mem_cons_self r rs)) with ⟨v, hv⟩
    have hfresh : iget ix v = none := by
      cases hig : iget ix v with
      | none => rfl
      | some j =>
        rcases hst.sound v j hig with ⟨hj, hkeyj⟩
        exfalso
        have hmem1 : (some v : Option String) ∈ (out.map (fun r => dget r k)) := by
          rw [← hkeyj]
          exact List.mem_map.mpr ⟨out[j], List.mem_iff_getElem.mpr ⟨j, hj, rfl⟩, rfl⟩
        have hdisj := List.disjoint_of_nodup_append
          (by rw [← List.map_append]; exact hnodup)
        exact hdisj hmem1 (by
          refine List.mem_map.mpr ⟨r, List.mem_cons_self r rs, hv⟩)
    have hstep : build_index (some k) (r :: rs) out.length ix
        = build_index (some k) rs (out.length + 1) (iput ix v out.length) := by
      simp [build_index, hv]
    rw [hstep]
    have hst' := mstate_append k out ix r v hst hv hfresh
    have hlen : (out ++ [r]).length = out.length + 1 := by simp
    have hih := ih (out ++ [r]) (iput ix v out.length) hst'
      (fun r' hr' => hkeyed r' (List.mem_cons_of_mem r hr'))
      (by rw [List.append_assoc]; simpa using hnodup)
    rw [List.append_assoc, hlen] at hih
    simpa using hih

/-- The upsert loop preserves the invariant: the final row list is still
keyed with pairwise-distinct key values (incoming rows need not have
distinct keys; they must be well-formed dicts). -/
theorem mstate_merge_loop (k : String) :
    ∀ (rows2 out : List Record) (ix : IxMap), MState k out ix →
    (∀ q ∈ rows2, (dget q k).isSome) →
    (∀ q ∈ rows2, WFRec q) →
    ∃ ix2, MState k (merge_loop (some k) rows2 out ix) ix2 := by
  intro rows2
  induction rows2 with
  | nil =>
    intro out ix hst _ _
    exact ⟨ix, hst⟩
  | cons q qs ih =>
    intro out ix hst hkeyed hwf
    rcases Option.isSome_iff_exists.mp (hkeyed q (List.mem_cons_self q qs)) with ⟨v, hv⟩
    cases hig : iget ix v with
    | some i =>
      rcases hst.sound v i hig with ⟨hi, hkeyi⟩
      have hgetd : (out.get? i).getD [] = out[i] := by
        rw [List.get?_eq_getElem?, List.getElem?_eq_getElem hi]
        rfl
      have hstep : merge_loop (some k) (q :: qs) out ix
          = merge_loop (some k) qs (out.set i (dupdate out[i] q)) ix := by
        simp only [merge_loop, hv, hig, hgetd]
      rw [hstep]
      exact ih (out.set i (dupdate out[i] q)) ix
        (mstate_set k out ix q i hi v hst hv (hwf q (List.mem_cons_self q qs)) hkeyi)
        (fun q' hq' => hkeyed q' (List.mem_cons_of_mem q hq'))
        (fun q' hq' => hwf q' (List.mem_cons_of_mem q hq'))
    | none =>
      have hstep : merge_loop (some k) (q :: qs) out ix
          = merge_loop (some k) qs (out ++ [q]) (iput ix v out.length) := by
        simp only [merge_loop, hv, hig]
      rw [hstep]
      exact ih (out ++ [q]) (iput ix v out.length)
        (mstate_append k out ix q v hst hv hig)
        (fun q' hq' => hkeyed q' (List.mem_cons_of_mem q hq'))
        (fun q' hq' => hwf q' (List.mem_cons_of_mem q hq'))

/-! ### `key_field` lemmas -/

theorem key_field_mem (h : List String) (hne : h ≠ []) : key_field h ∈ h := by
  unfold key_field
  cases hf : h.find? keyMatcher with
  | some c => exact List.mem_of_find?_eq_some hf
  | none =>
    cases h with
    | nil => exact absurd rfl hne
    | cons a t => exact List.mem_cons_self a t

/-- When both sides agree on the key column name, the merged header keeps
that key column as its key field. -/
theorem key_field_merged (h1 h2 : List String) (hne : h1 ≠ [])
    (heq : key_field h2 = key_field h1) :
    key_field (dedupFirst (h1 ++ h2)) = key_field h1 := by
  have hfind : (dedupFirst (h1 ++ h2)).find? keyMatcher
      = (h1.find? keyMatcher).or (h2.find? keyMatcher) := by
    rw [find?_dedupFirst, List.find?_append]
  cases hf1 : h1.find? keyMatcher with
  | some c =>
    have hm : (dedupFirst (h1 ++ h2)).find? keyMatcher = some c := by
      rw [hfind, hf1]
      rfl
    simp [key_field, hm, hf1]
  | none =>
    cases h1 with
    | nil => exact absurd rfl hne
    | cons a t =>
      have hka : key_field (a :: t) = a := by
        simp [key_field, hf1]
      cases hf2 : h2.find? keyMatcher with
      | some c =>
        exfalso
        have hmatch : keyMatcher c = true := List.find?_some hf2
        have hkey2 : key_field h2 = c := by simp [key_field, hf2]
        have hca : c = a := by rw [← hkey2, heq, hka]
        subst hca
        have := List.find?_eq_none.mp hf1 c (List.mem_cons_self c t)
        exact this hmatch
      | none =>
        have hm : (dedupFirst ((a :: t) ++ h2)).find? keyMatcher = none := by
          rw [hfind, hf1, hf2]
          rfl
        have hd : dedupFirst ((a :: t) ++ h2) = a :: dedupFirstAux [a] (t ++ h2) := by
          rw [show (a :: t) ++ h2 = a :: (t ++ h2) from rfl, dedupFirst_cons]
        rw [hd] at hm
        rw [hka, hd]
        simp [key_field, hm]

theorem dedupFirst_append_ne_nil (h1 h2 : List String) (hne : h1 ≠ []) :
    dedupFirst (h1 ++ h2) ≠ [] := by
  cases h1 with
  | nil => exact absurd rfl hne
  | cons a t =>
    rw [show (a :: t) ++ h2 = a :: (t ++ h2) from rfl, dedupFirst_cons]
    simp

/-- `merge_rows` on nonempty headers, unfolded to its three passes. -/
theorem merge_rows_eq (a : String) (t : List String) (rows1 : List Record)
    (b : String) (s : List String) (rows2 : List Record) :
    merge_rows (a :: t) rows1 (b :: s) rows2 =
      (dedupFirst ((a :: t) ++ (b :: s)),
       (merge_loop (some (key_field (b :: s))) rows2 rows1
         (build_index (some (key_field (a :: t))) rows1 0 [])).map
           (normTo (dedupFirst ((a :: t) ++ (b :: s))))) := by
  have hd : (a :: t) ++ (b :: s) = a :: (t ++ (b :: s)) := rfl
  simp only [merge_rows, List.isEmpty_cons, Bool.false_eq_true, if_false, hd,
    dedupFirst_cons]

/-- Core of the key-uniqueness invariant: a merge of keyed datasets that
agree on the key column, starting from existing rows with pairwise
distinct keys, yields rows with pairwise distinct keys under the merged
header's key field. -/
theorem merge_rows_nodup_keys (h1 : List String) (rows1 : List Record)
    (h2 : List String) (rows2 : List Record)
    (hne1 : h1 ≠ []) (hne2 : h2 ≠ [])
    (hkk : key_field h2 = key_field h1)
    (hk1 : ∀ r ∈ rows1, (dget r (key_field h1)).isSome)
    (hk2 : ∀ q ∈ rows2, (dget q (key_field h1)).isSome)
    (hwf2 : ∀ q ∈ rows2, WFRec q)
    (hnd : (rows1.map (fun r => dget r (key_field h1))).Nodup) :
    (((merge_rows h1 rows1 h2 rows2).2).map
      (fun r => dget r (key_field ((merge_rows h1 rows1 h2 rows2).1)))).Nodup := by
  rcases List.exists_cons_of_ne_nil hne1 with ⟨a, t, rfl⟩
  rcases List.exists_cons_of_ne_nil hne2 with ⟨b, s, rfl⟩
  rw [merge_rows_eq, hkk]
  have hkf : key_field (dedupFirst ((a :: t) ++ (b :: s))) = key_field (a :: t) :=
    key_field_merged (a :: t) (b :: s) (by simp) hkk
  rw [hkf]
  have hst0 : MState (key_field (a :: t)) rows1
      (build_index (some (key_field (a :: t))) rows1 0 []) := by
    have := mstate_build_index (key_field (a :: t)) rows1 [] []
      (mstate_nil _) hk1 (by simpa using hnd)
    simpa using this
  rcases mstate_merge_loop (key_field (a :: t)) rows2 rows1
    (build_index (some (key_field (a :: t))) rows1 0 []) hst0 hk2 hwf2 with ⟨ix2, hst⟩
  set out := merge_loop (some (key_field (a :: t))) rows2 rows1
    (build_index (some (key_field (a :: t))) rows1 0 []) with hout
  have hkmem : key_field (a :: t) ∈ dedupFirst ((a :: t) ++ (b :: s)) := by
    rw [mem_dedupFirst]
    exact List.mem_append_left _ (key_field_mem (a :: t) (by simp))
  have hmapeq : (out.map (normTo (dedupFirst ((a :: t) ++ (b :: s))))).map
      (fun r => dget r (key_field (a :: t)))
      = out.map (fun r => dget r (key_field (a :: t))) := by
    rw [List.map_map]
    refine List.map_congr_left ?_
    intro r hr
    have hsome := hst.keyed r hr
    rcases Option.isSome_iff_exists.mp hsome with ⟨v, hv⟩
    simp only [Function.comp]
    rw [dget_normTo _ _ _ hkmem, hv]
    rfl
  rw [hmapeq]
  exact hst.nodup

/-! ### Full characterization of the upsert loop -/

/-- The update an existing record receives from the first same-key
incoming record, if any. -/
def updFor (k : String) (rows2 : List Record) (r : Record) : Record :=
  match rows2.find? (fun q => dget q k == dget r k) with
  | some q => dupdate r q
  | none => r

/-- Incoming records whose key value is not present among the rows of
`out`. -/
def newRows (k : String) (out rows2 : List Record) : List Record :=
  rows2.filter (fun q => !(out.any (fun r => dget r k == dget q k)))

theorem mstate_fresh_keys (k : String) (out : List Record) (ix : IxMap)
    (hst : MState k out ix) (v : String) (hig : iget ix v = none) :
    ∀ r ∈ out, dget r k ≠ some v := by
  intro r hr hcon
  rcases List.getElem_of_mem hr with ⟨j, hj, rfl⟩
  have := hst.compl j hj v hcon
  rw [hig] at this
  cases this

theorem mstate_key_ne (k : String) (out : List Record) (ix : IxMap)
    (hst : MState k out ix) (i j : Nat) (hi : i < out.length)
    (hj : j < out.length) (hij : i ≠ j) (v : String)
    (hkeyi : dget out[i] k = some v) : dget out[j] k ≠ some v := by
  intro hcon
  have h1 := hst.compl i hi v hkeyi
  have h2 := hst.compl j hj v hcon
  rw [h1] at h2
  cases h2
  exact hij rfl

theorem any_beq_eq_map_any (k : String) (w : Option String) :
    ∀ (l : List Record),
    l.any (fun r => dget r k == w) = (l.map (fun r => dget r k)).any (fun y => y == w) := by
  intro l
  induction l with
  | nil => rfl
  | cons r l ihl => simp [List.any_cons, ihl]

theorem any_key_congr (k : String) (out out2 : List Record)
    (h : out2.map (fun r => dget r k) = out.map (fun r => dget r k))
    (w : Option String) :
    out2.any (fun r => dget r k == w) = out.any (fun r => dget r k == w) := by
  rw [any_beq_eq_map_any, any_beq_eq_map_any, h]

/-- Exact description of the upsert loop when the incoming rows also have
pairwise-distinct keys: each stored row receives the update of its (then
unique) same-key incoming row, and the remaining incoming rows are
appended in their incoming order. -/
theorem merge_loop_spec (k : String) :
    ∀ (rows2 out : List Record) (ix : IxMap), MState k out ix →
    (∀ q ∈ rows2, (dget q k).isSome) →
    (∀ q ∈ rows2, WFRec q) →
    ((rows2.map (fun q => dget q k)).Nodup) →
    merge_loop (some k) rows2 out ix
      = out.map (updFor k rows2) ++ newRows k out rows2 := by
  intro rows2
  induction rows2 with
  | nil =>
    intro out ix hst _ _ _
    have hupd : ∀ r ∈ out, updFor k [] r = id r := by
      intro r _
      simp [updFor]
    have hmap : out.map (updFor k []) = out := by
      rw [List.map_congr_left hupd, List.map_id]
    simp [merge_loop, newRows, hmap]
  | cons q qs ih =>
    intro out ix hst hkeyed hwf hnd2
    rcases Option.isSome_iff_exists.mp (hkeyed q (List.mem_cons_self q qs)) with ⟨v, hv⟩
    have hqs_keyed : ∀ q' ∈ qs, (dget q' k).isSome :=
      fun q' hq' => hkeyed q' (List.mem_cons_of_mem q hq')
    have hqs_wf : ∀ q' ∈ qs, WFRec q' :=
      fun q' hq' => hwf q' (List.mem_cons_of_mem q hq')
    have hqs_nd : (qs.map (fun q' => dget q' k)).Nodup :=
      (List.nodup_cons.mp (by simpa using hnd2)).2
    have hv_not_qs : ∀ q' ∈ qs, dget q' k ≠ some v := by
      intro q' hq' hcon
      have hmem : dget q k ∈ qs.map (fun q' => dget q' k) := by
        rw [hv, ← hcon]
        exact List.mem_map.mpr ⟨q', hq', rfl⟩
      exact (List.nodup_cons.mp (by simpa using hnd2)).1 hmem
    have hfind_qs_none : ∀ (r : Record), dget r k = some v →
        qs.find? (fun q' => dget q' k == dget r k) = none := by
      intro r hr
      rw [List.find?_eq_none]
      intro q' hq' hbeq
      rw [hr] at hbeq
      exact hv_not_qs q' hq' (by simpa using hbeq)
    cases hig : iget ix v with
    | some i =>
      rcases hst.sound v i hig with ⟨hi, hkeyi⟩
      have hgetd : (out.get? i).getD [] = out[i] := by
        rw [List.get?_eq_getElem?, List.getElem?_eq_getElem hi]
        rfl
      have hstep : merge_loop (some k) (q :: qs) out ix
          = merge_loop (some k) qs (out.set i (dupdate out[i] q)) ix := by
        simp only [merge_loop, hv, hig, hgetd]
      have hwf_q : WFRec q := hwf q (List.mem_cons_self q qs)
      have hst' := mstate_set k out ix q i hi v hst hv hwf_q hkeyi
      rw [hstep, ih (out.set i (dupdate out[i] q)) ix hst' hqs_keyed hqs_wf hqs_nd]
      have hupdkey : dget (dupdate out[i] q) k = some v :=
        dget_dupdate_some out[i] q k v hwf_q hv
      have hkeys_set : (out.set i (dupdate out[i] q)).map (fun r => dget r k)
          = out.map (fun r => dget r k) := by
        apply List.ext_getElem (by simp)
        intro n h1 h2
        simp only [List.getElem_map, List.getElem_set]
        split
        · next hn => subst hn; rw [hupdkey, hkeyi]
        · rfl
      have hmap_eq : (out.set i (dupdate out[i] q)).map (updFor k qs)
          = out.map (updFor k (q :: qs)) := by
        apply List.ext_getElem (by simp)
        intro n h1 h2
        simp only [List.getElem_map, List.getElem_set]
        have hn2 : n < out.length := by simpa using h2
        split
        · next hn =>
          subst hn
          have hlhs : updFor k qs (dupdate out[i] q) = dupdate out[i] q := by
            rw [updFor, hfind_qs_none _ hupdkey]
          have hrhs : updFor k (q :: qs) out[i] = dupdate out[i] q := by
            rw [updFor, List.find?_cons_of_pos _ (by rw [hv, hkeyi]; simp)]
          rw [hlhs, hrhs]
        · next hn =>
          rcases Option.isSome_iff_exists.mp
            (hst.keyed out[n] (List.mem_iff_getElem.mpr ⟨n, hn2, rfl⟩)) with ⟨w, hw⟩
          have hwv : dget out[n] k ≠ some v :=
            mstate_key_ne k out ix hst i n hi hn2 hn v hkeyi
          have hneg : ¬ ((dget q k == dget out[n] k) = true) := by
            rw [hv, hw]
            simp only [beq_iff_eq, Option.some.injEq]
            intro hcon
            exact hwv (hw.trans (congrArg some hcon.symm))
          have : updFor k (q :: qs) out[n] = updFor k qs out[n] := by
            rw [updFor, updFor,
              @List.find?_cons_of_neg _ (fun q' => dget q' k == dget out[n] k) q qs hneg]
          rw [this]
      have hnew_eq : newRows k (out.set i (dupdate out[i] q)) qs = newRows k out qs := by
        rw [newRows, newRows]
        refine List.filter_congr ?_
        intro q' hq'
        rw [any_key_congr k out _ hkeys_set]
      have hdrop : newRows k out (q :: qs) = newRows k out qs := by
        have hany : out.any (fun r => dget r k == dget q k) = true := by
          refine List.any_eq_true.mpr ⟨out[i], List.mem_iff_getElem.mpr ⟨i, hi, rfl⟩, ?_⟩
          rw [hkeyi, hv]
          simp
        simp only [newRows]
        exact List.filter_cons_of_neg (by rw [hany]; simp)
      rw [hmap_eq, hnew_eq, hdrop]
    | none =>
      have hfresh := mstate_fresh_keys k out ix hst v hig
      have hstep : merge_loop (some k) (q :: qs) out ix
          = merge_loop (some k) qs (out ++ [q]) (iput ix v out.length) := by
        simp only [merge_loop, hv, hig]
      have hst' := mstate_append k out ix q v hst hv hig
      rw [hstep, ih (out ++ [q]) (iput ix v out.length) hst' hqs_keyed hqs_wf hqs_nd]
      have hmapq : updFor k qs q = q := by
        rw [updFor, hfind_qs_none q hv]
      have hmap_split : (out ++ [q]).map (updFor k qs)
          = out.map (updFor k qs) ++ [q] := by
        rw [List.map_append]
        simp [hmapq]
      have hmap_eq : out.map (updFor k qs) = out.map (updFor k (q :: qs)) := by
        refine List.map_congr_left ?_
        intro r hr
        rcases Option.isSome_iff_exists.mp (hst.keyed r hr) with ⟨w, hw⟩
        have hneg : ¬ ((dget q k == dget r k) = true) := by
          rw [hv, hw]
          simp only [beq_iff_eq, Option.some.injEq]
          intro hcon
          exact hfresh r hr (hw.trans (congrArg some hcon.symm))
        rw [updFor, updFor,
          @List.find?_cons_of_neg _ (fun q' => dget q' k == dget r k) q qs hneg]
      have hnew_eq : newRows k (out ++ [q]) qs = newRows k out qs := by
        rw [newRows, newRows]
        refine List.filter_congr ?_
        intro q' hq'
        rw [List.any_append]
        have : [q].any (fun r => dget r k == dget q' k) = false := by
          rcases Option.isSome_iff_exists.mp (hqs_keyed q' hq') with ⟨w', hw'⟩
          simp only [List.any_cons, List.any_nil, Bool.or_false]
          rw [hv, hw']
          simp only [beq_eq_false_iff_ne, ne_eq, Option.some.injEq]
          intro hcon
          exact hv_not_qs q' hq' (by rw [hw', hcon])
        rw [this, Bool.or_false]
      have hkeep : newRows k out (q :: qs) = q :: newRows k out qs := by
        have hany : out.any (fun r => dget r k == dget q k) = false := by
          refine List.any_eq_false.mpr ?_
          intro r hr
          rcases Option.isSome_iff_exists.mp (hst.keyed r hr) with ⟨w, hw⟩
          rw [hw, hv]
          simp only [beq_iff_eq, Option.some.injEq]
          intro hcon
          exact hfresh r hr (hw.trans (congrArg some hcon))
        simp only [newRows]
        exact List.filter_cons_of_pos (by rw [hany]; simp)
      rw [hmap_split, hnew_eq, hkeep, ← hmap_eq, List.append_assoc]
      rfl

/-- `merge_rows` on nonempty headers agreeing on the key column, with
keyed rows and distinct keys on both sides: ordered column union, update
of existing rows by their unique same-key incoming row, append of the
fresh incoming rows, all re-expanded to the merged header. -/
theorem merge_rows_spec (h1 : List String) (rows1 : List Record)
    (h2 : List String) (rows2 : List Record)
    (hne1 : h1 ≠ []) (hne2 : h2 ≠ [])
    (hkk : key_field h2 = key_field h1)
    (hk1 : ∀ r ∈ rows1, (dget r (key_field h1)).isSome)
    (hk2 : ∀ q ∈ rows2, (dget q (key_field h1)).isSome)
    (hwf2 : ∀ q ∈ rows2, WFRec q)
    (hnd1 : (rows1.map (fun r => dget r (key_field h1))).Nodup)
    (hnd2 : (rows2.map (fun q => dget q (key_field h1))).Nodup) :
    merge_rows h1 rows1 h2 rows2
      = (dedupFirst (h1 ++ h2),
         rows1.map (fun r =>
           normTo (dedupFirst (h1 ++ h2)) (updFor (key_field h1) rows2 r))
         ++ (newRows (key_field h1) rows1 rows2).map
             (normTo (dedupFirst (h1 ++ h2)))) := by
  rcases List.exists_cons_of_ne_nil hne1 with ⟨a, t, rfl⟩
  rcases List.exists_cons_of_ne_nil hne2 with ⟨b, s, rfl⟩
  rw [merge_rows_eq, hkk]
  have hst0 : MState (key_field (a :: t)) rows1
      (build_index (some (key_field (a :: t))) rows1 0 []) := by
    have := mstate_build_index (key_field (a :: t)) rows1 [] []
      (mstate_nil _) hk1 (by simpa using hnd1)
    simpa using this
  rw [merge_loop_spec (key_field (a :: t)) rows2 rows1 _ hst0 hk2 hwf2 hnd2]
  rw [List.map_append, List.map_map]
  rfl

theorem dedupFirstAux_all_seen (seen l : List String)
    (h : ∀ x ∈ l, x ∈ seen) : dedupFirstAux seen l = [] := by
  induction l with
  | nil => rfl
  | cons a t ih =>
    rw [dedupFirstAux,
      if_pos ((contains_iff_mem seen a).mpr (h a (List.mem_cons_self a t)))]
    exact ih (fun x hx => h x (List.mem_cons_of_mem a hx))

theorem dedupFirstAux_append (l1 : List String) :
    ∀ (seen l2 : List String), (∀ x ∈ l2, x ∈ seen ∨ x ∈ l1) →
    dedupFirstAux seen (l1 ++ l2) = dedupFirstAux seen l1 := by
  induction l1 with
  | nil =>
    intro seen l2 h
    rw [List.nil_append, dedupFirstAux]
    exact dedupFirstAux_all_seen seen l2 (fun x hx => ((h x hx).resolve_right (by simp)))
  | cons a t ih =>
    intro seen l2 h
    by_cases ha : a ∈ seen
    · rw [List.cons_append, dedupFirstAux, if_pos ((contains_iff_mem seen a).mpr ha),
        dedupFirstAux, if_pos ((contains_iff_mem seen a).mpr ha)]
      refine ih seen l2 ?_
      intro x hx
      rcases h x hx with hs | hc
      · exact Or.inl hs
      · rcases List.mem_cons.mp hc with rfl | hm
        · exact Or.inl ha
        · exact Or.inr hm
    · have hnc : ¬ (seen.contains a = true) :=
        fun hc => ha ((contains_iff_mem seen a).mp hc)
      rw [List.cons_append, dedupFirstAux, if_neg hnc, dedupFirstAux, if_neg hnc]
      congr 1
      refine ih (a :: seen) l2 ?_
      intro x hx
      rcases h x hx with hs | hc
      · exact Or.inl (List.mem_cons_of_mem a hs)
      · rcases List.mem_cons.mp hc with rfl | hm
        · exact Or.inl (List.mem_cons_self x seen)
        · exact Or.inr hm

theorem dedupFirstAux_of_nodup (l : List String) :
    ∀ (seen : List String), l.Nodup → (∀ x ∈ l, x ∉ seen) →
    dedupFirstAux seen l = l := by
  induction l with
  | nil => intro seen _ _; rfl
  | cons a t ih =>
    intro seen hnd hdisj
    have hna : ¬ (seen.contains a = true) :=
      fun hc => hdisj a (List.mem_cons_self a t) ((contains_iff_mem seen a).mp hc)
    rw [dedupFirstAux, if_neg hna]
    congr 1
    refine ih (a :: seen) (List.nodup_cons.mp hnd).2 ?_
    intro x hx hmem
    rcases List.mem_cons.mp hmem with rfl | hm
    · exact (List.nodup_cons.mp hnd).1 hx
    · exact hdisj x (List.mem_cons_of_mem a hx) hm

theorem dedupFirst_of_nodup (l : List String) (h : l.Nodup) : dedupFirst l = l :=
  dedupFirstAux_of_nodup l [] h (by simp)

theorem dedupFirst_append_self (h : List String) (hnd : h.Nodup) :
    dedupFirst (h ++ h) = h := by
  rw [dedupFirst, dedupFirstAux_append h [] h (fun x hx => Or.inr hx)]
  exact dedupFirst_of_nodup h hnd

theorem dinsert_mem_self (m : Record) (k v : String) (hm : WFRec m)
    (hmem : (k, v) ∈ m) : dinsert m k v = m := by
  induction m with
  | nil => cases hmem
  | cons p m ih =>
    obtain ⟨a, b⟩ := p
    by_cases hak : a = k
    · have hbeq : (a == k) = true := by simp [hak]
      rw [dinsert]
      simp only [hbeq, if_true]
      rcases List.mem_cons.mp hmem with heq | hmem'
      · rw [heq]
      · exfalso
        have : a ∈ m.map Prod.fst := List.mem_map.mpr ⟨(k, v), hmem', hak.symm⟩
        exact (List.nodup_cons.mp hm).1 this
    · have hbeq : (a == k) = false := by simp [hak]
      rw [dinsert]
      simp only [hbeq, Bool.false_eq_true, if_false]
      have hmem' : (k, v) ∈ m := by
        rcases List.mem_cons.mp hmem with heq | hmem'
        · exact absurd (congrArg Prod.fst heq).symm hak
        · exact hmem'
      rw [ih (List.nodup_cons.mp hm).2 hmem']

theorem dupdate_eq_self (r : Record) :
    ∀ (m : Record), WFRec m → (∀ p ∈ r, p ∈ m) → dupdate m r = m := by
  induction r with
  | nil => intro m _ _; rfl
  | cons p r ih =>
    intro m hm hsub
    show dupdate (dinsert m p.1 p.2) r = m
    rw [dinsert_mem_self m p.1 p.2 hm (by simpa using hsub p (List.mem_cons_self p r))]
    exact ih m hm (fun p' hp' => hsub p' (List.mem_cons_of_mem p hp'))

theorem find?_samekey_self (k : String) :
    ∀ (rows : List Record), ((rows.map (fun q => dget q k)).Nodup) →
    ∀ r ∈ rows, rows.find? (fun q => dget q k == dget r k) = some r := by
  intro rows
  induction rows with
  | nil => intro _ r hr; cases hr
  | cons q qs ih =>
    intro hnd r hr
    rcases List.mem_cons.mp hr with rfl | hr'
    · exact List.find?_cons_of_pos _ (by simp)
    · have hne : dget q k ≠ dget r k := by
        intro hcon
        have : dget q k ∈ qs.map (fun q' => dget q' k) := by
          rw [hcon]
          exact List.mem_map.mpr ⟨r, hr', rfl⟩
        exact (List.nodup_cons.mp (by simpa using hnd)).1 this
      rw [List.find?_cons_of_neg _ (by simpa using hne)]
      exact ih (List.nodup_cons.mp (by simpa using hnd)).2 r hr'

theorem normTo_of_form (r : Record) :
    ∀ (h : List String), r.map Prod.fst = h → h.Nodup → normTo h r = r := by
  induction r with
  | nil =>
    intro h hform _
    rw [← hform]
    rfl
  | cons p r ih =>
    intro h hform hnd
    obtain ⟨a, b⟩ := p
    rw [← hform]
    simp only [List.map_cons] at *
    rw [normTo, List.map_cons, dget_cons, if_pos rfl]
    have htail : ∀ c ∈ r.map Prod.fst,
        (c, (dget ((a, b) :: r) c).getD "") = (c, (dget r c).getD "") := by
      intro c hc
      have hac : ¬ a = c := by
        intro hacc
        subst hacc
        rw [← hform] at hnd
        exact (List.nodup_cons.mp hnd).1 hc
      rw [dget_cons, if_neg hac]
    rw [List.map_congr_left htail]
    have := ih (r.map Prod.fst) rfl (by rw [← hform] at hnd; exact (List.nodup_cons.mp hnd).2)
    rw [show (List.map (fun c => (c, (dget r c).getD "")) (r.map Prod.fst))
        = normTo (r.map Prod.fst) r from rfl, this]
    simp

/-! ### Claims -/

/-- C1, counterexample: the first-run write path of `process_domain`
(no pre-existing file) persists the engine-plus-fusion rows verbatim; a
zone-file hit that also classifies statically is emitted twice (once as
`nrd`/`czds`, once as `ct_log`), so the persisted dataset holds two
records with the same domain key. -/
theorem C1_counterexample :
    process_domain (fun _ => []) [] [] [] [] [] ["a.vercel.app"] [] none
      = some (["domain", "type", "source"],
          [[("domain", "a.vercel.app"), ("type", "nrd"), ("source", "czds")],
           [("domain", "a.vercel.app"), ("type", "ct_log"), ("source", "vercel")]], 2)
    ∧ ¬ (([[("domain", "a.vercel.app"), ("type", "nrd"), ("source", "czds")],
           [("domain", "a.vercel.app"), ("type", "ct_log"), ("source", "vercel")]].map
            (fun r => dget r (key_field ["domain", "type", "source"]))).Nodup) := by
  exact ⟨by decide, by decide⟩

/-- C1, amended: along the merge path (`merge_rows`, the path taken when
a dataset file already exists), key uniqueness of the existing dataset is
preserved: if both headers are nonempty and name the same key column,
every row carries a key, and the existing rows have pairwise-distinct key
values, then the merged rows have pairwise-distinct key values under the
merged header's key field.  The first-run direct write path can persist
duplicate keys (see the counterexample), so uniqueness holds for every
dataset that has passed through at least the invariant-preserving merge,
not for the raw first write. -/
theorem C1_merge_key_uniqueness (h1 : List String) (rows1 : List Record)
    (h2 : List String) (rows2 : List Record)
    (hne1 : h1 ≠ []) (hne2 : h2 ≠ [])
    (hkk : key_field h2 = key_field h1)
    (hk1 : ∀ r ∈ rows1, (dget r (key_field h1)).isSome)
    (hk2 : ∀ q ∈ rows2, (dget q (key_field h1)).isSome)
    (hwf2 : ∀ q ∈ rows2, WFRec q)
    (hnd : (rows1.map (fun r => dget r (key_field h1))).Nodup) :
    (((merge_rows h1 rows1 h2 rows2).2).map
      (fun r => dget r (key_field ((merge_rows h1 rows1 h2 rows2).1)))).Nodup :=
  merge_rows_nodup_keys h1 rows1 h2 rows2 hne1 hne2 hkk hk1 hk2 hwf2 hnd

theorem C1_merge_key_uniqueness_witness :
    (((merge_rows ["domain"] [[("domain", "a.com")]] ["domain"]
        [[("domain", "b.com")], [("domain", "a.com")]]).2).map
      (fun r => dget r (key_field ((merge_rows ["domain"] [[("domain", "a.com")]]
        ["domain"] [[("domain", "b.com")], [("domain", "a.com")]]).1)))).Nodup :=
  C1_merge_key_uniqueness ["domain"] [[("domain", "a.com")]] ["domain"]
    [[("domain", "b.com")], [("domain", "a.com")]]
    (by decide) (by decide) (by decide) (by decide) (by decide) (by decide) (by decide)

/-- C2: merging a well-formed dataset (nonempty duplicate-free header,
every record shaped exactly on the header, pairwise-distinct domain-key
values — the invariants of datasets the merger itself writes) with an
identical copy of itself returns the same header and the same records in
the same order, and the newly-added-domain count computed in
`process_domain` is 0. -/
theorem C2_merge_self_identity (h : List String) (rows : List Record)
    (hne : h ≠ []) (hnd : h.Nodup)
    (hform : ∀ r ∈ rows, r.map Prod.fst = h)
    (hkeys : (rows.map (fun r => dget r (key_field h))).Nodup) :
    merge_rows h rows h rows = (h, rows) ∧ added_count h rows h rows = 0 := by
  have hkmem : key_field h ∈ h := key_field_mem h hne
  have hk : ∀ r ∈ rows, (dget r (key_field h)).isSome := by
    intro r hr
    rw [dget_isSome_iff, hform r hr]
    exact hkmem
  have hwf : ∀ r ∈ rows, WFRec r := by
    intro r hr
    rw [WFRec, hform r hr]
    exact hnd
  constructor
  · rw [merge_rows_spec h rows h rows hne hne rfl hk hk hwf hkeys hkeys]
    have hH : dedupFirst (h ++ h) = h := dedupFirst_append_self h hnd
    have hnew : newRows (key_field h) rows rows = [] := by
      rw [newRows, List.filter_eq_nil_iff]
      intro q hq hcon
      rw [Bool.not_eq_true'] at hcon
      have hany : rows.any
          (fun r => dget r (key_field h) == dget q (key_field h)) = true :=
        List.any_eq_true.mpr ⟨q, hq, by simp⟩
      rw [hany] at hcon
      cases hcon
    rw [hH, hnew, List.map_nil, List.append_nil]
    have hupd : ∀ r ∈ rows, normTo h (updFor (key_field h) rows r) = id r := by
      intro r hr
      rw [updFor, find?_samekey_self (key_field h) rows hkeys r hr]
      show normTo h (dupdate r r) = id r
      rw [dupdate_eq_self r r (hwf r hr) (fun p hp => hp)]
      exact normTo_of_form r h (hform r hr) hnd
    rw [List.map_congr_left hupd, List.map_id]
  · have hhe : h.isEmpty = false := by
      cases h with
      | nil => exact absurd rfl hne
      | cons a t => rfl
    simp only [added_count, hhe, Bool.false_eq_true, if_false]
    rw [List.countP_eq_zero]
    intro v hv hcon
    rw [Bool.not_eq_true'] at hcon
    have hmem : (rows.filterMap (fun r => dget r (key_field h))).contains v = true :=
      (contains_iff_mem _ v).mpr hv
    rw [hmem] at hcon
    cases hcon

theorem C2_merge_self_identity_witness :
    merge_rows ["domain"] [[("domain", "a.com")]] ["domain"] [[("domain", "a.com")]]
      = (["domain"], [[("domain", "a.com")]])
    ∧ added_count ["domain"] [[("domain", "a.com")]] ["domain"]
        [[("domain", "a.com")]] = 0 :=
  C2_merge_self_identity ["domain"] [[("domain", "a.com")]]
    (by decide) (by decide) (by decide) (by decide)

/-- C3, counterexample: an incoming same-key record overwrites existing
column values rather than leaving them unchanged — merging an existing
row with `type = x` against an incoming same-key row with `type = y`
yields `type = y`. -/
theorem C3_counterexample :
    dget (((merge_rows ["domain", "type"] [[("domain", "a"), ("type", "x")]]
      ["domain", "type"] [[("domain", "a"), ("type", "y")]]).2).headD []) "type"
      = some "y"
    ∧ ("y" : String) ≠ "x" := by
  exact ⟨by decide, by decide⟩

/-- C3, amended: for a merge of keyed datasets agreeing on the key column
(nonempty headers, every record keyed and a well-formed dict, keys
pairwise distinct on each side), the merged header is the ordered union
of the two headers with no duplicates (so no column of the existing
header is ever lost); the merged records are the existing records in
original order, each updated by its unique same-key incoming record with
incoming values OVERWRITING the shared columns (not only adding new
ones), followed by the incoming records whose key was not previously
present, in incoming order; every record is re-expanded to the merged
header with missing values defaulting to the empty string. -/
theorem C3_merge_frame (h1 : List String) (rows1 : List Record)
    (h2 : List String) (rows2 : List Record)
    (hne1 : h1 ≠ []) (hne2 : h2 ≠ [])
    (hkk : key_field h2 = key_field h1)
    (hk1 : ∀ r ∈ rows1, (dget r (key_field h1)).isSome)
    (hk2 : ∀ q ∈ rows2, (dget q (key_field h1)).isSome)
    (hwf2 : ∀ q ∈ rows2, WFRec q)
    (hnd1 : (rows1.map (fun r => dget r (key_field h1))).Nodup)
    (hnd2 : (rows2.map (fun q => dget q (key_field h1))).Nodup) :
    merge_rows h1 rows1 h2 rows2
      = (dedupFirst (h1 ++ h2),
         rows1.map (fun r =>
           normTo (dedupFirst (h1 ++ h2)) (updFor (key_field h1) rows2 r))
         ++ (newRows (key_field h1) rows1 rows2).map
             (normTo (dedupFirst (h1 ++ h2))))
    ∧ ((merge_rows h1 rows1 h2 rows2).1).Nodup
    ∧ (∀ c ∈ h1, c ∈ (merge_rows h1 rows1 h2 rows2).1) := by
  have hs := merge_rows_spec h1 rows1 h2 rows2 hne1 hne2 hkk hk1 hk2 hwf2 hnd1 hnd2
  refine ⟨hs, ?_, ?_⟩
  · rw [hs]
    exact nodup_dedupFirst _
  · intro c hc
    rw [hs]
    exact (mem_dedupFirst _ c).mpr (List.mem_append_left h2 hc)

theorem C3_merge_frame_witness :
    merge_rows ["domain", "type"] [[("domain", "a"), ("type", "x")]]
        ["domain", "src"] [[("domain", "a"), ("src", "s")], [("domain", "b"), ("src", "t")]]
      = (dedupFirst (["domain", "type"] ++ ["domain", "src"]),
         [[("domain", "a"), ("type", "x")]].map (fun r =>
           normTo (dedupFirst (["domain", "type"] ++ ["domain", "src"]))
             (updFor (key_field ["domain", "type"])
               [[("domain", "a"), ("src", "s")], [("domain", "b"), ("src", "t")]] r))
         ++ (newRows (key_field ["domain", "type"])
              [[("domain", "a"), ("type", "x")]]
              [[("domain", "a"), ("src", "s")], [("domain", "b"), ("src", "t")]]).map
             (normTo (dedupFirst (["domain", "type"] ++ ["domain", "src"]))))
    ∧ ((merge_rows ["domain", "type"] [[("domain", "a"), ("type", "x")]]
        ["domain", "src"]
        [[("domain", "a"), ("src", "s")], [("domain", "b"), ("src", "t")]]).1).Nodup
    ∧ (∀ c ∈ ["domain", "type"],
        c ∈ (merge_rows ["domain", "type"] [[("domain", "a"), ("type", "x")]]
          ["domain", "src"]
          [[("domain", "a"), ("src", "s")], [("domain", "b"), ("src", "t")]]).1) :=
  C3_merge_frame ["domain", "type"] [[("domain", "a"), ("type", "x")]]
    ["domain", "src"] [[("domain", "a"), ("src", "s")], [("domain", "b"), ("src", "t")]]
    (by decide) (by decide) (by decide) (by decide) (by decide) (by decide)
    (by decide) (by decide)

theorem find?_map_oracle (f : String → Bool) :
    ∀ (l : List String) (d : String), d ∈ l →
    (l.map (fun x => (x, f x))).find? (fun p => p.1 == d) = some (d, f d) := by
  intro l
  induction l with
  | nil => intro d hd; cases hd
  | cons a t ih =>
    intro d hd
    rcases List.mem_cons.mp hd with rfl | hm
    · rw [List.map_cons]
      exact List.find?_cons_of_pos _ (by simp)
    · by_cases h : a = d
      · subst h
        rw [List.map_cons]
        exact List.find?_cons_of_pos _ (by simp)
      · rw [List.map_cons, List.find?_cons_of_neg _ (by simp [h])]
        exact ih d hm

/-- C4, counterexample: a cached domain that does not occur in the
current input batch is dropped from the rewritten liveness cache — with
cache `{old.com: (true, false)}` and input batch `[new.com]` (nothing
resolvable or registered), the written rows are empty. -/
theorem C4_counterexample :
    (process_file (fun _ => false) (fun _ => false) ["new.com"]
      [("old.com", true, false)]).1 = []
    ∧ ("old.com", true, false) ∈ [("old.com", true, false)] := by
  exact ⟨by decide, by decide⟩

/-- C4, amended: a cached domain is never probed (it is submitted to
neither the DNS pool nor the WHOIS pool), and when it occurs in the
current input batch its cached flags pass through unchanged into the
output (for cache entries with at least one true flag, which is every
entry the tool itself writes).  A cached domain absent from the input
batch, however, does not survive the rewrite: entries are not
append-only across changing batches. -/
theorem C4_cache_no_reprobe (resolveF whoisF : String → Bool)
    (domains : List String) (cache : List (String × Bool × Bool))
    (d : String) (rv rg : Bool)
    (hc : cache.find? (fun p => p.1 == d) = some (d, rv, rg)) :
    d ∉ (process_file resolveF whoisF domains cache).2.1
    ∧ d ∉ (process_file resolveF whoisF domains cache).2.2
    ∧ (d ∈ domains → (rv || rg) = true →
        (d, rv, rg) ∈ (process_file resolveF whoisF domains cache).1) := by
  have htodo : d ∉ domains.filter (fun x => (cache.find? (fun p => p.1 == x)).isNone) := by
    intro hmem
    have hni := (List.mem_filter.mp hmem).2
    rw [hc] at hni
    simp at hni
  refine ⟨htodo, ?_, ?_⟩
  · intro hmem
    have := (List.mem_filter.mp hmem).1
    exact htodo this
  · intro hd hflag
    refine List.mem_filterMap.mpr ⟨d, hd, ?_⟩
    simp only [hc]
    show (if (rv || rg) = true then some (d, rv, rg) else none) = some (d, rv, rg)
    rw [if_pos hflag]

theorem C4_cache_no_reprobe_witness :
    "c.com" ∉ (process_file (fun _ => true) (fun _ => false) ["c.com", "d.com"]
      [("c.com", true, false)]).2.1
    ∧ "c.com" ∉ (process_file (fun _ => true) (fun _ => false) ["c.com", "d.com"]
      [("c.com", true, false)]).2.2
    ∧ ("c.com", true, false) ∈ (process_file (fun _ => true) (fun _ => false)
      ["c.com", "d.com"] [("c.com", true, false)]).1 := by
  have h := C4_cache_no_reprobe (fun _ => true) (fun _ => false) ["c.com", "d.com"]
    [("c.com", true, false)] "c.com" true false (by decide)
  exact ⟨h.1, h.2.1, h.2.2 (by decide) (by decide)⟩

/-- C7, counterexample: `whois_registered` also accepts a response whose
only truthy field is `domain_name`; the claim's five-field disjunction
(registrar, creation, update, expiration, name servers) is then false
while the code marks the domain registered. -/
theorem C7_counterexample :
    whois_registered
      (some (WhoisData.mk (some "EXAMPLE.COM") none none none none none)) = true
    ∧ ([(WhoisData.mk (some "EXAMPLE.COM") none none none none none).registrar,
        (WhoisData.mk (some "EXAMPLE.COM") none none none none none).creation_date,
        (WhoisData.mk (some "EXAMPLE.COM") none none none none none).updated_date,
        (WhoisData.mk (some "EXAMPLE.COM") none none none none none).expiration_date,
        (WhoisData.mk (some "EXAMPLE.COM") none none none none none).name_servers].any
          truthy) = false := by
  exact ⟨by decide, by decide⟩

/-- C7, amended: a WHOIS lookup failure (or `None` response) marks the
domain not registered; a successful response marks it registered iff at
least one of the SIX fields domain name, registrar, creation date,
update date, expiration date, name servers is truthy (the claim omitted
domain name); and the liveness classifier only submits to the WHOIS pool
domains whose DNS resolution failed. -/
theorem C7_whois_fields (w : Option WhoisData)
    (resolveF whoisF : String → Bool) (domains : List String)
    (cache : List (String × Bool × Bool)) (d : String) :
    whois_registered none = false
    ∧ (whois_registered w = true ↔ ∃ data, w = some data ∧
        (truthy data.domain_name = true ∨ truthy data.registrar = true
         ∨ truthy data.creation_date = true ∨ truthy data.updated_date = true
         ∨ truthy data.expiration_date = true ∨ truthy data.name_servers = true))
    ∧ (d ∈ (process_file resolveF whoisF domains cache).2.2 → resolveF d = false) := by
  refine ⟨rfl, ?_, ?_⟩
  · cases w with
    | none => simp [whois_registered]
    | some data =>
      simp only [whois_registered, List.any_cons, List.any_nil, Bool.or_false,
        Bool.or_eq_true, Option.some.injEq]
      constructor
      · intro h
        exact ⟨data, rfl, by tauto⟩
      · rintro ⟨data', rfl, h⟩
        tauto
  · intro hmem
    have hm := List.mem_filter.mp hmem
    have htodo := hm.1
    have hres := hm.2
    rw [find?_map_oracle resolveF _ d htodo] at hres
    simp only [Option.map_some', Option.getD_some] at hres
    rw [Bool.not_eq_true'] at hres
    exact hres

theorem C7_whois_fields_witness :
    whois_registered (some (WhoisData.mk none (some "R") none none none none)) = true
    ∧ (fun _ => false : String → Bool) "x.com" = false := by
  have h := C7_whois_fields (some (WhoisData.mk none (some "R") none none none none))
    (fun _ => false) (fun _ => true) ["x.com"] [] "x.com"
  refine ⟨(h.2.1).mpr ⟨_, rfl, Or.inr (Or.inl (by decide))⟩, h.2.2 (by decide)⟩

theorem dinsert_not_mem (r : Record) (k v : String) (h : k ∉ r.map Prod.fst) :
    dinsert r k v = r ++ [(k, v)] := by
  induction r with
  | nil => rfl
  | cons p r ih =>
    have hne : ¬ p.1 = k := by
      intro hc
      exact h (by rw [List.map_cons]; exact List.mem_cons.mpr (Or.inl hc.symm))
    rw [dinsert]
    simp only [show (p.1 == k) = false from by simp [hne], Bool.false_eq_true, if_false]
    rw [ih (fun hm => h (by rw [List.map_cons]; exact List.mem_cons.mpr (Or.inr hm)))]
    rfl

theorem mkItem_spec (row : List String) :
    ∀ (hs : List String) (n : Nat) (item : Record), hs.Nodup →
    (∀ c ∈ hs, c ∉ item.map Prod.fst) →
    (List.enumFrom n hs).foldl (fun it p => dinsert it p.2 (row.getD p.1 "")) item
      = item ++ (List.enumFrom n hs).map (fun p => (p.2, row.getD p.1 "")) := by
  intro hs
  induction hs with
  | nil => intro n item _ _; simp [List.enumFrom]
  | cons c cs ih =>
    intro n item hnd hdisj
    have hstep : List.enumFrom n (c :: cs) = (n, c) :: List.enumFrom (n + 1) cs := rfl
    rw [hstep, List.foldl_cons, List.map_cons]
    have hc_not : c ∉ item.map Prod.fst := hdisj c (List.mem_cons_self c cs)
    have hins : dinsert item c (row.getD n "") = item ++ [(c, row.getD n "")] :=
      dinsert_not_mem item c _ hc_not
    have hdisj' : ∀ c' ∈ cs, c' ∉ (item ++ [(c, row.getD n "")]).map Prod.fst := by
      intro c' hc' hmem
      rw [List.map_append] at hmem
      rcases List.mem_append.mp hmem with hm | hm
      · exact hdisj c' (List.mem_cons_of_mem c hc') hm
      · simp only [List.map_cons, List.map_nil, List.mem_singleton] at hm
        subst hm
        exact (List.nodup_cons.mp hnd).1 hc'
    show (List.enumFrom (n + 1) cs).foldl
        (fun it p => dinsert it p.2 (row.getD p.1 "")) (dinsert item c (row.getD n ""))
      = item ++ ((c, row.getD n "") :: (List.enumFrom (n + 1) cs).map
          (fun p => (p.2, row.getD p.1 "")))
    rw [hins, ih (n + 1) (item ++ [(c, row.getD n "")]) (List.nodup_cons.mp hnd).2 hdisj',
      List.append_assoc]
    rfl

theorem mkItem_eq (header : List String) (row : List String) (hnd : header.Nodup) :
    mkItem header row = header.enum.map (fun p => (p.2, row.getD p.1 "")) := by
  have h := mkItem_spec row header 0 [] hnd (by simp)
  simpa [mkItem, List.enum] using h

/-- C8: the engine adapter is a soft-failing total parser — a non-zero
exit status or blank standard output yields an empty header and empty
record list; on success the first CSV row becomes the ordered header and
each remaining row one record, with short rows padded by empty strings
(`r[i] if i < len(r) else ""`). -/
theorem C8_engine_adapter (rc : Int) (so : String) (rows : List (List String))
    (header : List String) (data : List (List String)) (row : List String) :
    ((rc ≠ 0 ∨ strTrim so = "") → run_dnstwist rc so rows = ([], []))
    ∧ (strTrim so ≠ "" → run_dnstwist 0 so (header :: data)
        = (header, data.map (mkItem header)))
    ∧ (header.Nodup →
        mkItem header row = header.enum.map (fun p => (p.2, row.getD p.1 ""))) := by
  refine ⟨?_, ?_, fun hnd => mkItem_eq header row hnd⟩
  · intro h
    rcases h with h | h
    · simp [run_dnstwist, h]
    · simp [run_dnstwist, h]
  · intro h
    simp [run_dnstwist, h]

theorem C8_engine_adapter_witness :
    run_dnstwist 1 "x" [["a"]] = ([], [])
    ∧ run_dnstwist 0 "x" (["domain", "extra"] :: [["d1"]])
        = (["domain", "extra"], [["d1"]].map (mkItem ["domain", "extra"]))
    ∧ mkItem ["domain", "extra"] ["v"]
        = ["domain", "extra"].enum.map (fun p => (p.2, ["v"].getD p.1 "")) := by
  have h := C8_engine_adapter 1 "x" [["a"]] ["domain", "extra"] [["d1"]] ["v"]
  exact ⟨h.1 (Or.inl (by decide)), h.2.1 (by decide), h.2.2 (by decide)⟩

theorem cname_step_length (resolve : String → Option (List String)) :
    ∀ (n : Nat) (target : String) (seen out : List String),
    (cname_step resolve n target seen out).length ≤ out.length + n := by
  intro n
  induction n with
  | zero =>
    intro target seen out
    simp [cname_step]
  | succ m ih =>
    intro target seen out
    rw [cname_step]
    by_cases h : seen.contains target = true
    · rw [if_pos h]
      omega
    · rw [if_neg h]
      cases hr : resolve target with
      | none =>
        show out.length ≤ out.length + (m + 1)
        omega
      | some ans =>
        cases ans with
        | nil =>
          show out.length ≤ out.length + (m + 1)
          omega
        | cons a rest =>
          show (cname_step resolve m (rstripDots a) (target :: seen)
            (out ++ [rstripDots a])).length ≤ out.length + (m + 1)
          have hb := ih (rstripDots a) (target :: seen) (out ++ [rstripDots a])
          simp only [List.length_append, List.length_cons, List.length_nil] at hb
          omega

/-- C9: CNAME-chain resolution is a total bounded loop — for every
resolver oracle the chain has at most 5 hops; a first-hop resolution
failure (exception or empty answer) returns the empty chain collected so
far; and a self-referential CNAME stops after one hop via the
visited-set cycle guard. -/
theorem C9_cname_chain (resolve : String → Option (List String)) (name : String) :
    (get_cname_chain resolve name).length ≤ 5
    ∧ (resolve name = none → get_cname_chain resolve name = [])
    ∧ (resolve name = some [] → get_cname_chain resolve name = [])
    ∧ get_cname_chain (fun t => some [t]) "self.example" = ["self.example"] := by
  refine ⟨?_, ?_, ?_, by decide⟩
  · have h := cname_step_length resolve 5 name [] []
    simpa [get_cname_chain] using h
  · intro h
    simp [get_cname_chain, cname_step, h]
  · intro h
    simp [get_cname_chain, cname_step, h]

theorem C9_cname_chain_witness :
    (get_cname_chain (fun _ => none) "a.com").length ≤ 5
    ∧ get_cname_chain (fun _ => none) "a.com" = [] := by
  have h := C9_cname_chain (fun _ => none) "a.com"
  exact ⟨h.1, h.2.1 rfl⟩

/-- C10: `read_domains` always returns a duplicate-free list preserving
first-seen order; and when the first row offers no `domain`/`fqdn`
column (case-insensitive), it falls back to taking the trimmed first
cell of every row — the first (header) row included, so header text
becomes a probe target. -/
theorem C10_read_domains (rows : List (List String)) (first : List String)
    (rest : List (List String)) :
    (read_domains rows).Nodup
    ∧ (rows = first :: rest →
       (∀ c ∈ first, strLower (strTrim c) ≠ "domain" ∧ strLower (strTrim c) ≠ "fqdn") →
       read_domains rows = dedupFirst ((first :: rest).filterMap (fun row =>
         match row with
         | [] => none
         | c :: _ => (let d := strTrim c; if d ≠ "" then some d else none)))) := by
  constructor
  · cases rows with
    | nil => simp [read_domains]
    | cons f r =>
      simp only [read_domains]
      exact nodup_dedupFirst _
  · rintro rfl hnk
    simp only [read_domains]
    have hidx : (if first.any (fun x => x ≠ "") then
        first.map (fun x => strLower (strTrim x)) else []).findIdx?
          (fun k => k == "domain" || k == "fqdn") = none := by
      by_cases hany : first.any (fun x => x ≠ "") = true
      · rw [if_pos hany, List.findIdx?_eq_none_iff]
        intro x hx
        rcases List.mem_map.mp hx with ⟨c, hc, rfl⟩
        have hcc := hnk c hc
        simp [hcc.1, hcc.2]
      · rw [if_neg hany]
        rfl
    rw [hidx]

theorem C10_read_domains_witness :
    (read_domains [["name"], ["x.com"], ["x.com"]]).Nodup
    ∧ read_domains [["name"], ["x.com"], ["x.com"]]
        = dedupFirst ([["name"], ["x.com"], ["x.com"]].filterMap (fun row =>
            match row with
            | [] => none
            | c :: _ => (let d := strTrim c; if d ≠ "" then some d else none))) := by
  have h := C10_read_domains [["name"], ["x.com"], ["x.com"]] ["name"]
    [["x.com"], ["x.com"]]
  exact ⟨h.1, h.2 rfl (by decide)⟩

theorem insortStr_perm (x : String) (l : List String) :
    (insortStr x l).Perm (x :: l) := by
  induction l with
  | nil => exact List.Perm.refl _
  | cons y ys ih =>
    rw [insortStr]
    by_cases h : strLt x y = true
    · rw [if_pos h]
    · rw [if_neg h]
      exact (List.Perm.cons y ih).trans (List.Perm.swap x y ys)

theorem sortStrings_perm (l : List String) : (sortStrings l).Perm l := by
  induction l with
  | nil => exact List.Perm.refl _
  | cons x xs ih =>
    have hstep : sortStrings (x :: xs) = insortStr x (sortStrings xs) := rfl
    rw [hstep]
    exact (insortStr_perm x (sortStrings xs)).trans (List.Perm.cons x ih)

theorem mem_engine_dict (kws extra : List String) (w : String) :
    w ∈ engine_dict kws extra ↔ (w ∈ kws ∨ w ∈ extra) := by
  rw [engine_dict, (sortStrings_perm _).mem_iff, mem_dedupFirst, List.mem_append]

theorem nodup_engine_dict (kws extra : List String) :
    (engine_dict kws extra).Nodup := by
  rw [engine_dict, (sortStrings_perm _).nodup_iff]
  exact nodup_dedupFirst _

/-- C5, counterexample: the per-seed fusion keywords for organization
"Acme Bank Ltd." and domain "acmebank.com" are in derivation order, but
the dictionary handed to the engine is `sorted(set(...))` — with the
built-in lexicon merged in, it begins with "account", not with the
registrable root "acmebank". -/
theorem C5_counterexample :
    row_keywords "acmebank.com" (some "Acme Bank Ltd.")
      = some ("acmebank.com", ["acmebank", "acmebankltd", "acme", "bank", "ltd"])
    ∧ (engine_dict ["acmebank", "acmebankltd", "acme", "bank", "ltd"]
        (extra_keywords [])).head? = some "account"
    ∧ some ("account" : String) ≠ some "acmebank" := by
  refine ⟨by decide, by decide, by decide⟩

/-- C5, amended: the per-seed fusion keyword list is the deterministic
deduplicated order-preserving sequence [registrable root] ++
[concatenated organization words of length at least 3] ++ [those words
individually], lowercase with punctuation stripped, with no empty or
duplicate entries — for "Acme Bank Ltd." / "acmebank.com" exactly
["acmebank", "acmebankltd", "acme", "bank", "ltd"].  The dictionary
handed to the engine contains exactly the union of those keywords with
the extra keywords and built-in lexicon, deduplicated — but sorted
lexicographically rather than kept in derivation order (for the example
it begins with "account"). -/
theorem C5_dictionary (fileKws kws : List String) (w : String) :
    row_keywords "acmebank.com" (some "Acme Bank Ltd.")
      = some ("acmebank.com", ["acmebank", "acmebankltd", "acme", "bank", "ltd"])
    ∧ (w ∈ engine_dict kws (extra_keywords fileKws)
        ↔ (w ∈ kws ∨ w ∈ extra_keywords fileKws))
    ∧ (engine_dict kws (extra_keywords fileKws)).Nodup
    ∧ (∀ (domCell : String) (orgCell : Option String) (dom : String)
        (kws2 : List String), row_keywords domCell orgCell = some (dom, kws2) →
        kws2.Nodup ∧ "" ∉ kws2)
    ∧ (engine_dict ["acmebank", "acmebankltd", "acme", "bank", "ltd"]
        (extra_keywords [])).head? = some "account" := by
  refine ⟨by decide, mem_engine_dict _ _ _, nodup_engine_dict _ _, ?_, by decide⟩
  intro domCell orgCell dom kws2 h
  simp only [row_keywords] at h
  split at h
  · simp only [Option.some.injEq, Prod.mk.injEq] at h
    obtain ⟨h1, h2⟩ := h
    subst h2
    refine ⟨nodup_dedupFirst _, ?_⟩
    intro hmem
    rw [mem_dedupFirst] at hmem
    have := (List.mem_filter.mp hmem).2
    simp at this
  · cases h

theorem C5_dictionary_witness :
    (row_keywords "bank.com" (some "Our Bank")
      = some ("bank.com", ["bank", "ourbank", "our"]))
    ∧ (["bank", "ourbank", "our"].Nodup ∧ "" ∉ ["bank", "ourbank", "our"]) := by
  have h := C5_dictionary [] [] ""
  exact ⟨by decide, h.2.2.2.1 "bank.com" (some "Our Bank") "bank.com"
    ["bank", "ourbank", "our"] (by decide)⟩

theorem static_match_suffix (dl b : String) (h : static_match dl b = true) :
    b.data <:+ dl.data := by
  rw [static_match, Bool.or_eq_true, Bool.or_eq_true] at h
  rcases h with (h | h) | h
  · have h1 : ("." ++ b).data <:+ dl.data := by
      rw [strEndsWith] at h
      exact List.isSuffixOf_iff_suffix.mp h
    have h2 : b.data <:+ ("." ++ b).data := by
      rw [String.data_append]
      exact List.suffix_cons '.' b.data
    exact h2.trans h1
  · have hde : dl = b := by simpa using h
    rw [hde]
  · rw [strEndsWith] at h
    exact List.isSuffixOf_iff_suffix.mp h

theorem bases_no_suffix :
    ∀ p ∈ PLATFORM_BASES, ∀ q ∈ PLATFORM_BASES,
      p.2 ≠ q.2 → (p.2.data.isSuffixOf q.2.data) = false := by decide

theorem static_match_unique (dl : String) (p q : String × String)
    (hp : p ∈ PLATFORM_BASES) (hq : q ∈ PLATFORM_BASES)
    (hmp : static_match dl p.2 = true) (hmq : static_match dl q.2 = true) :
    p.2 = q.2 := by
  by_contra hne
  have hsp := static_match_suffix dl p.2 hmp
  have hsq := static_match_suffix dl q.2 hmq
  rcases List.suffix_or_suffix_of_suffix hsp hsq with h | h
  · have hfalse := bases_no_suffix p hp q hq hne
    rw [List.isSuffixOf_iff_suffix.mpr h] at hfalse
    cases hfalse
  · have hfalse := bases_no_suffix q hq p hp (fun hc => hne hc.symm)
    rw [List.isSuffixOf_iff_suffix.mpr h] at hfalse
    cases hfalse

theorem classify_platform_none_eq (d : String) :
    classify_platform d none
      = (PLATFORM_BASES.find? (fun p => static_match (strLower d) p.2)).map
          (fun p => p.1) := by
  cases hf : PLATFORM_BASES.find? (fun p => static_match (strLower d) p.2) with
  | none => simp [classify_platform, hf]
  | some p => simp [classify_platform, hf]

/-- C6: platform classification — "foo.vercel.app" classifies statically
to "vercel" with no use of the resolver; a statically-unmatched candidate
whose CNAME chain passes through "cname.vercel-dns.com" classifies to
"vercel" via the marker table; any static classification is by a base
that is the longest (indeed the unique) matching suffix in the table; and
a candidate matching no base and given no chain is left unclassified
(`none`). -/
theorem C6_platform_classification (d : String) :
    classify_platform "foo.vercel.app" none = some "vercel"
    ∧ ((∀ p ∈ PLATFORM_BASES, static_match (strLower d) p.2 = false) →
        classify_platform d (some ["cname.vercel-dns.com"]) = some "vercel")
    ∧ (∀ k', classify_platform d none = some k' →
        ∃ b, (k', b) ∈ PLATFORM_BASES ∧ static_match (strLower d) b = true ∧
          ∀ p ∈ PLATFORM_BASES, static_match (strLower d) p.2 = true →
            p.2.length ≤ b.length)
    ∧ ((∀ p ∈ PLATFORM_BASES, static_match (strLower d) p.2 = false) →
        classify_platform d none = none) := by
  refine ⟨by decide, ?_, ?_, ?_⟩
  · intro h
    have hf : PLATFORM_BASES.find? (fun p => static_match (strLower d) p.2) = none :=
      List.find?_eq_none.mpr (fun p hp => by rw [h p hp]; simp)
    simp only [classify_platform, hf]
    decide
  · intro k' h
    rw [classify_platform_none_eq] at h
    rcases Option.map_eq_some'.mp h with ⟨p, hf, hk⟩
    have hpm : p ∈ PLATFORM_BASES := List.mem_of_find?_eq_some hf
    have hps : static_match (strLower d) p.2 = true := by
      have hs := List.find?_some hf
      simpa using hs
    refine ⟨p.2, ?_, hps, ?_⟩
    · rw [← hk]
      exact hpm
    · intro q hq hmq
      rw [static_match_unique (strLower d) q p hq hpm hmq hps]
  · intro h
    rw [classify_platform_none_eq, List.find?_eq_none.mpr
      (fun p hp => by rw [h p hp]; simp)]
    rfl

theorem C6_platform_classification_witness :
    classify_platform "nomatch.example" (some ["cname.vercel-dns.com"]) = some "vercel"
    ∧ classify_platform "nomatch.example" none = none
    ∧ ∃ b, ("vercel", b) ∈ PLATFORM_BASES
        ∧ static_match (strLower "foo.vercel.app") b = true
        ∧ ∀ p ∈ PLATFORM_BASES, static_match (strLower "foo.vercel.app") p.2 = true →
            p.2.length ≤ b.length := by
  refine ⟨(C6_platform_classification "nomatch.example").2.1 (by decide),
    (C6_platform_classification "nomatch.example").2.2.2 (by decide),
    (C6_platform_classification "foo.vercel.app").2.2.1 "vercel" (by decide)⟩

end Fishing
